import Mathlib

set_option maxRecDepth 8000

/-!
Verification development for the scriba-cli module manager.

The definitions below are a shallow embedding of the Rust sources:
  - the metadata parser read_module_prop from src/module.rs,
  - the bind-mount walker walk_and_bind_files / mount_module from src/module.rs,
  - the staging primitives delete_dir / move_dir from src/module.rs over a
    flat filesystem model,
  - the lifecycle orchestration (module install, module uninstall and the
    boot-complete pass) from src/main.rs.
-/

namespace Scriba

/-! ## Association lists

Rust HashMap insert/get restricted to the operations the code uses.
Insertion overwrites the value stored for an existing key. -/

def alInsert {α : Type} : List (String × α) → String → α → List (String × α)
  | [], k, v => [(k, v)]
  | (k0, v0) :: rest, k, v =>
    if k0 = k then (k, v) :: rest else (k0, v0) :: alInsert rest k v

def alGet {α : Type} : List (String × α) → String → Option α
  | [], _ => none
  | (k0, v0) :: rest, k => if k0 = k then some v0 else alGet rest k

def alRemove {α : Type} : List (String × α) → String → List (String × α)
  | [], _ => []
  | (k0, v0) :: rest, k =>
    if k0 = k then rest else (k0, v0) :: alRemove rest k

abbrev PropMap := List (String × String)

/-! ## Metadata parser (read_module_prop, src/module.rs lines 19-93) -/

/-- Split a character list on a separator character. -/
def splitOnChar (sep : Char) : List Char → List (List Char)
  | [] => [[]]
  | c :: cs =>
    match splitOnChar sep cs with
    | [] => [[]]
    | g :: gs => if c = sep then [] :: g :: gs else (c :: g) :: gs

/-- Drop one trailing carriage return, as Rust lines does per line. -/
def stripCR (cs : List Char) : List Char :=
  match cs.getLast? with
  | some '\r' => cs.dropLast
  | _ => cs

/-- Rust str lines: split on the newline terminator, without a final empty
line, then drop one trailing carriage return per line. -/
def rustLines (s : String) : List (List Char) :=
  let ps := splitOnChar '\n' s.toList
  let ps := if ps.getLast? = some [] then ps.dropLast else ps
  ps.map stripCR

/-- Rust str split_once: the part before the first occurrence of the
separator and everything after it. -/
def splitOnceChar (sep : Char) : List Char → Option (List Char × List Char)
  | [] => none
  | c :: cs =>
    if c = sep then some ([], cs)
    else
      match splitOnceChar sep cs with
      | none => none
      | some (k, v) => some (c :: k, v)

/-- Whitespace in the sense of trimming. -/
def isWS (c : Char) : Bool :=
  c = ' ' || c = '\t' || c = '\r' || c = '\n'

/-- Rust str trim on a character list. -/
def trimChars (cs : List Char) : List Char :=
  ((cs.dropWhile isWS).reverse.dropWhile isWS).reverse

def strTrim (s : String) : String :=
  String.mk (trimChars s.toList)

/-- ASCII lower-casing, as Rust to_lowercase behaves on the inputs the
code compares against. -/
def lowerChar (c : Char) : Char :=
  if 65 ≤ c.toNat ∧ c.toNat ≤ 90 then Char.ofNat (c.toNat + 32) else c

def strLower (s : String) : String :=
  String.mk (s.toList.map lowerChar)

/-- Accumulate the value of a decimal digit string, failing on a non-digit. -/
def decValue : List Char → Nat → Option Nat
  | [], acc => some acc
  | c :: cs, acc =>
    if c.isDigit then decValue cs (acc * 10 + (c.toNat - 48)) else none

/-- Rust parse to i32: optional sign, at least one ASCII digit, value in
the signed 32-bit range. -/
def parseI32 (s : String) : Option Int :=
  match s.toList with
  | [] => none
  | c :: cs =>
    if c = '-' then
      match cs with
      | [] => none
      | _ :: _ =>
        match decValue cs 0 with
        | none => none
        | some n => if n ≤ 2147483648 then some (-(n : Int)) else none
    else if c = '+' then
      match cs with
      | [] => none
      | _ :: _ =>
        match decValue cs 0 with
        | none => none
        | some n => if n ≤ 2147483647 then some (n : Int) else none
    else
      match decValue (c :: cs) 0 with
      | none => none
      | some n => if n ≤ 2147483647 then some (n : Int) else none

/-- The value assigned to a key by the last line carrying it: the later
lines win. Used to state what the line-parsing loop keeps. -/
def lastValue (lines : List (List Char)) (k : String) : Option String :=
  match lines with
  | [] => none
  | line :: rest =>
    match lastValue rest k with
    | some w => some w
    | none =>
      match splitOnceChar '=' line with
      | some kv =>
        if String.mk (trimChars kv.1) = k then some (String.mk (trimChars kv.2))
        else none
      | none => none

inductive PropType where
  | string
  | int
  | bool

/-- Errors of read_module_prop, one constructor per distinct failure in the
source (the source carries them as anyhow messages). -/
inductive PropError where
  | readFailed
  | missingKey (key : String)
  | emptyValue (key : String)
  | notInt (key : String)
  | notBool (key : String)
  | badSkipMount
  | noDirName
  | idMismatch (id dirName : String)
deriving DecidableEq, Repr

/-- validate_prop from src/module.rs lines 68-93. -/
def validate_prop (map : PropMap) (key : String) (ty : PropType) :
    Except PropError Unit :=
  match alGet map key with
  | none => .error (.missingKey key)
  | some value =>
    match ty with
    | .string => if strTrim value = "" then .error (.emptyValue key) else .ok ()
    | .int =>
      match parseI32 value with
      | none => .error (.notInt key)
      | some _ => .ok ()
    | .bool =>
      if strLower value = "true" ∨ strLower value = "false" then .ok ()
      else .error (.notBool key)

/-- The line-parsing loop of read_module_prop: each line with an equals sign
inserts trimmed key and trimmed value, later lines overwriting earlier
ones; lines without an equals sign are ignored. -/
def parseLines : List (List Char) → PropMap → PropMap
  | [], m => m
  | line :: rest, m =>
    parseLines rest
      (match splitOnceChar '=' line with
       | some kv =>
           alInsert m (String.mk (trimChars kv.1)) (String.mk (trimChars kv.2))
       | none => m)

def parsePropContent (content : String) : PropMap :=
  parseLines (rustLines content) []

/-- read_module_prop from src/module.rs lines 19-58, applied to the file
content and the name of the immediate parent directory of the file
(none when that name cannot be obtained). -/
def read_module_prop (content : String) (dirName : Option String) :
    Except PropError PropMap := do
  let map := parsePropContent content
  validate_prop map "id" .string
  validate_prop map "name" .string
  validate_prop map "description" .string
  validate_prop map "version" .int
  let map ←
    match alGet map "skip_mount" with
    | some v =>
      if strLower v = "true" ∨ strLower v = "false" then pure map
      else Except.error PropError.badSkipMount
    | none => pure (alInsert map "skip_mount" "false")
  -- the source unwraps here; the key is present because validation passed
  let id :=
    match alGet map "id" with
    | some i => i
    | none => ""
  match dirName with
  | none => Except.error PropError.noDirName
  | some d =>
    if id = d then pure map else Except.error (PropError.idMismatch id d)

/-! ## Filesystem trees and the bind-mount walker
(walk_and_bind_files / bind_mount_file / mount_module, src/module.rs
lines 152-236) -/

/-- A path, as the list of its components below the root. -/
abbrev Path := List String

/-- A node of a module file tree: a regular file, a directory with its
entries in enumeration order, or any other entry kind (symlink, device,
socket, fifo), which the walker never mounts. -/
inductive FsNode where
  | file (content : String)
  | dir (entries : List (String × FsNode))
  | other
deriving Repr

/-- One bind mount actually performed: source path inside the module tree
and destination path on the live root. -/
structure MountRec where
  src : Path
  dst : Path
deriving Repr, DecidableEq

/-- The error of bind_mount_file: it carries the source path, the
destination path and the OS error of the failed mount syscall. -/
structure MountError where
  src : Path
  dst : Path
  errno : Int
deriving Repr, DecidableEq

/-- The mount syscall oracle: none means the bind mount succeeds, some e
means it fails with OS error e. -/
abbrev MountOracle := Path → Path → Option Int

/-- walk_and_bind_files from src/module.rs lines 180-222 over a tree of
entries. root is the set of paths existing on the live root, base the
absolute path of the module system directory, rel the path of the current
directory relative to base. Returns the bind mounts performed, in order,
and the error that aborted the walk when one did. -/
def walkEntries (root : List Path) (ok : MountOracle) (base : Path) :
    Path → List (String × FsNode) → List MountRec × Option MountError
  | _, [] => ([], none)
  | rel, (name, node) :: rest =>
    let p := rel ++ [name]
    match node with
    | .dir sub =>
      if root.contains p then
        -- recurse, but do not bind the directory itself
        match walkEntries root ok base p sub with
        | (ms, some e) => (ms, some e)
        | (ms, none) =>
          let r := walkEntries root ok base rel rest
          (ms ++ r.1, r.2)
      else
        -- destination missing: prune the whole subtree
        walkEntries root ok base rel rest
    | .file _ =>
      if root.contains p then
        match ok (base ++ p) p with
        | some errno => ([], some ⟨base ++ p, p, errno⟩)
        | none =>
          let r := walkEntries root ok base rel rest
          (⟨base ++ p, p⟩ :: r.1, r.2)
      else
        -- destination missing: skip this file
        walkEntries root ok base rel rest
    | .other => walkEntries root ok base rel rest
termination_by rel es => sizeOf es

/-- The mounts the walk attempts, in order, independent of the mount
oracle: regular files below surviving directories whose destination
exists on the live root. -/
def planEntries (root : List Path) (base : Path) :
    Path → List (String × FsNode) → List MountRec
  | _, [] => []
  | rel, (name, node) :: rest =>
    let p := rel ++ [name]
    match node with
    | .dir sub =>
      if root.contains p then
        planEntries root base p sub ++ planEntries root base rel rest
      else
        planEntries root base rel rest
    | .file _ =>
      if root.contains p then
        ⟨base ++ p, p⟩ :: planEntries root base rel rest
      else
        planEntries root base rel rest
    | .other => planEntries root base rel rest
termination_by rel es => sizeOf es

/-- Relative paths of the regular-file leaves of a tree of entries. -/
def treeFiles : Path → List (String × FsNode) → List Path
  | _, [] => []
  | rel, (name, node) :: rest =>
    match node with
    | .dir sub => treeFiles (rel ++ [name]) sub ++ treeFiles rel rest
    | .file _ => (rel ++ [name]) :: treeFiles rel rest
    | .other => treeFiles rel rest
termination_by rel es => sizeOf es

/-- Attempt a planned list of mounts in order, stopping at the first
failure and keeping the mounts already performed. -/
def attemptMounts (ok : MountOracle) : List MountRec → List MountRec × Option MountError
  | [] => ([], none)
  | m :: rest =>
    match ok m.src m.dst with
    | some errno => ([], some ⟨m.src, m.dst, errno⟩)
    | none =>
      let r := attemptMounts ok rest
      (m :: r.1, r.2)

/-! ## Flat filesystem model and the staging primitives
(delete_dir / move_dir, src/module.rs lines 113-130) -/

/-- The kind stored at an existing path: a directory or a regular file
with its data. -/
inductive FKind where
  | fdir
  | ffile (data : String)
deriving DecidableEq, Repr

/-- A filesystem as the association list of its existing paths. -/
abbrev Fs := List (Path × FKind)

/-- pathUnder q p: q lies at or below p, that is p is a leading part of q. -/
def pathUnder : Path → Path → Bool
  | _, [] => true
  | [], _ :: _ => false
  | a :: q, b :: p => if a = b then pathUnder q p else false

def fsGet : Fs → Path → Option FKind
  | [], _ => none
  | (q, k) :: rest, p => if q = p then some k else fsGet rest p

def fsHas (fs : Fs) (p : Path) : Bool :=
  (fsGet fs p).isSome

/-- Remove a path and everything below it. -/
def removeTree (fs : Fs) (p : Path) : Fs :=
  fs.filter (fun e => !(pathUnder e.1 p))

/-- Rust remove_dir_all: fails on a missing path or on a regular file. -/
def remove_dir_all (fs : Fs) (p : Path) : Except String Fs :=
  match fsGet fs p with
  | some .fdir => .ok (removeTree fs p)
  | some (.ffile _) => .error "not a directory"
  | none => .error "no such path"

/-- delete_dir from src/module.rs lines 113-119: remove the directory when
it exists, a no-op when it does not. -/
def delete_dir (fs : Fs) (p : Path) : Except String Fs :=
  if fsHas fs p then remove_dir_all fs p else .ok fs

/-- One step of create_dir_all along the components of the path: an
existing directory component is kept, a missing one is created, an
existing non-directory component is an error. -/
def mkdirs (fs : Fs) (base : Path) : List String → Except String Fs
  | [] => .ok fs
  | c :: cs =>
    let q := base ++ [c]
    match fsGet fs q with
    | some .fdir => mkdirs fs q cs
    | some (.ffile _) => .error "component exists as a file"
    | none => mkdirs ((q, .fdir) :: fs) q cs

/-- Rust create_dir_all: create every missing component of the path as a
directory. -/
def create_dir_all (fs : Fs) (p : Path) : Except String Fs :=
  mkdirs fs [] p

/-- Move the subtree rooted at src to dst, dropping whatever was at or
below dst. -/
def moveTree (fs : Fs) (src dst : Path) : Fs :=
  (fs.filter (fun e => !(pathUnder e.1 src) && !(pathUnder e.1 dst))) ++
    ((fs.filter (fun e => pathUnder e.1 src)).map
      (fun e => (dst ++ e.1.drop src.length, e.2)))

/-- Entries strictly below the path. -/
def subtreeNonempty (fs : Fs) (p : Path) : Bool :=
  fs.any (fun e => pathUnder e.1 p && !(decide (e.1 = p)))

/-- The parent of the destination must be a directory (the root always
counts as one). -/
def parentIsDir (fs : Fs) (p : Path) : Bool :=
  match p.dropLast with
  | [] => true
  | q :: qs =>
    match fsGet fs (q :: qs) with
    | some .fdir => true
    | _ => false

/-- The precondition checks of the POSIX rename syscall, as an optional
error. -/
def renameCheck (fs : Fs) (src dst : Path) : Option String :=
  match fsGet fs src with
  | none => some "rename: source does not exist"
  | some sk =>
    if pathUnder dst src then some "rename: destination is inside the source"
    else if !(parentIsDir fs dst) then some "rename: destination parent is not a directory"
    else
      match fsGet fs dst with
      | none => none
      | some dk =>
        match sk, dk with
        | .fdir, .fdir =>
          if subtreeNonempty fs dst then some "rename: destination not empty"
          else none
        | .ffile _, .ffile _ => none
        | .fdir, .ffile _ => some "rename: destination is not a directory"
        | .ffile _, .fdir => some "rename: destination is a directory"

/-- The POSIX rename syscall used by Rust fs rename: renaming a path onto
itself is a successful no-op, otherwise the checks run and the subtree is
moved. -/
def rename (fs : Fs) (src dst : Path) : Except String Fs :=
  match fsGet fs src with
  | none => .error "rename: source does not exist"
  | some _ =>
    if src = dst then .ok fs
    else
      match renameCheck fs src dst with
      | some e => .error e
      | none => .ok (moveTree fs src dst)

/-- move_dir from src/module.rs lines 121-130: delete an existing
destination, otherwise create it with create_dir_all, then rename the
source into place. -/
def move_dir (fs : Fs) (src dst : Path) : Except String Fs := do
  let fs1 ← if fsHas fs dst then delete_dir fs dst else create_dir_all fs dst
  rename fs1 src dst

/-! ## Lifecycle orchestration (src/main.rs) -/

/-- The entries of a directory node; other nodes have none. -/
def nodeEntries : FsNode → List (String × FsNode)
  | .dir es => es
  | _ => []

/-- read_module_prop applied to the module.prop file inside a module
directory node: reading the file fails unless the entry exists and is a
regular file. -/
def read_module_prop_node (node : FsNode) (dirName : Option String) :
    Except PropError PropMap :=
  match node with
  | .dir es =>
    match alGet es "module.prop" with
    | some (.file c) => read_module_prop c dirName
    | _ => .error .readFailed
  | _ => .error .readFailed

/-- The failures of mount_module from src/module.rs lines 224-236. -/
inductive ModError where
  | noModuleDir
  | noSystemDir
  | mountFail (e : MountError)
deriving Repr, DecidableEq

/-- mount_module from src/module.rs lines 224-236: require the module
directory and its system subdirectory, then walk. base is the absolute
path of the module directory. Returns the mounts performed and the error
when one occurred. -/
def mount_module (root : List Path) (ok : MountOracle) (base : Path)
    (m : FsNode) : List MountRec × Option ModError :=
  match m with
  | .dir es =>
    match alGet es "system" with
    | some (.dir sys) =>
      let r := walkEntries root ok (base ++ ["system"]) [] sys
      (r.1, r.2.map .mountFail)
    | _ => ([], some .noSystemDir)
  | _ => ([], some .noModuleDir)

/-- The outcome recorded for one installed module by step 4 of the
boot-complete pass (src/main.rs lines 216-268). The script field is none
when boot-complete.sh is absent, some b when it ran with success b. -/
inductive InitOutcome where
  | badProps (e : PropError)
  | disabled
  | mountFailed (ms : List MountRec) (e : ModError)
  | done (ms : List MountRec) (script : Option Bool)
deriving Repr

/-- Run boot-complete.sh when it exists; sc tells whether the script of a
given module exits successfully. -/
def bootScript (sc : String → Bool) (name : String)
    (es : List (String × FsNode)) : Option Bool :=
  match alGet es "boot-complete.sh" with
  | some _ => some (sc name)
  | none => none

/-- The body of the module-initialization loop of the boot-complete pass
for one entry of the modules directory (src/main.rs lines 218-268). -/
def initModule (root : List Path) (ok : MountOracle) (sc : String → Bool)
    (modulesBase : Path) (name : String) (node : FsNode) : InitOutcome :=
  match read_module_prop_node node (some name) with
  | .error e => .badProps e
  | .ok props =>
    let es := nodeEntries node
    if (alGet es "disable.flag").isSome then .disabled
    else if ((alGet props "skip_mount").getD "false") = "true" then
      .done [] (bootScript sc name es)
    else
      match mount_module root ok (modulesBase ++ [name]) node with
      | (ms, some e) => .mountFailed ms e
      | (ms, none) => .done ms (bootScript sc name es)

/-- The module-initialization loop itself: every entry of the modules
directory is processed; a failure for one module never stops the loop. -/
def bootInitModules (root : List Path) (ok : MountOracle) (sc : String → Bool)
    (modulesBase : Path) : List (String × FsNode) → List (String × InitOutcome)
  | [] => []
  | (name, node) :: rest =>
    (name, initModule root ok sc modulesBase name node) ::
      bootInitModules root ok sc modulesBase rest

/-- The persistent module state: the installed set and the update-pending
set, each an association list from module id to the module directory
tree. -/
structure SysState where
  installed : List (String × FsNode)
  update : List (String × FsNode)
deriving Repr

/-- The observable result of one user command: the new state, the
lifecycle scripts that were executed (module id and script name, in
order), and the error the command surfaced when one did. -/
structure CmdResult where
  state : SysState
  ranScripts : List (String × String)
  err : Option String
deriving Repr

/-- The module install command (src/main.rs lines 104-130). unzipped is
the result of extracting the archive into a fresh temporary directory,
tempName the name of that temporary directory (read_module_prop checks
the id against it, since module.prop sits directly inside it), sc the
exit status oracle for lifecycle scripts. -/
def installCommand (st : SysState) (unzipped : Except String FsNode)
    (tempName : String) (sc : String → String → Bool) : CmdResult :=
  match unzipped with
  | .error e => ⟨st, [], some ("failed to extract archive: " ++ e)⟩
  | .ok tree =>
    match read_module_prop_node tree (some tempName) with
    | .error _ => ⟨st, [], some "module.prop failed validation"⟩
    | .ok props =>
      match alGet props "id" with
      | none => ⟨st, [], some "module.prop missing id"⟩
      | some module_id =>
        -- delete a same-id module already in the update dir, then move
        -- the extracted tree there
        let st1 : SysState :=
          if (alGet st.update module_id).isSome then
            { st with update := alRemove st.update module_id }
          else st
        let st2 : SysState :=
          { st1 with update := alInsert st1.update module_id tree }
        -- run_script install.sh: bails when the script does not exist
        match alGet (nodeEntries tree) "install.sh" with
        | some _ =>
          if sc module_id "install.sh" then
            ⟨st2, [(module_id, "install.sh")], none⟩
          else
            ⟨st2, [(module_id, "install.sh")], some "script install.sh failed"⟩
        | none => ⟨st2, [], some "script install.sh does not exist"⟩

/-- The module uninstall command (src/main.rs lines 132-160). -/
def uninstallCommand (st : SysState) (module_id : String)
    (sc : String → String → Bool) : CmdResult :=
  -- a module present in the update dir is removed from there and the
  -- command returns at once
  if (alGet st.update module_id).isSome then
    ⟨⟨st.installed, alRemove st.update module_id⟩, [], none⟩
  else
    match alGet st.installed module_id with
    | some node =>
      let es := nodeEntries node
      match alGet es "uninstall.flag" with
      | some (.file _) =>
        -- flag readable: unflag the module
        let node2 := FsNode.dir (alRemove es "uninstall.flag")
        ⟨⟨alInsert st.installed module_id node2, st.update⟩, [], none⟩
      | _ =>
        -- run uninstall.sh, then write the flag
        match alGet es "uninstall.sh" with
        | some _ =>
          if sc module_id "uninstall.sh" then
            let node2 := FsNode.dir (alInsert es "uninstall.flag" (.file ""))
            ⟨⟨alInsert st.installed module_id node2, st.update⟩,
              [(module_id, "uninstall.sh")], none⟩
          else
            ⟨st, [(module_id, "uninstall.sh")], some "script uninstall.sh failed"⟩
        | none => ⟨st, [], some "script uninstall.sh does not exist"⟩
    | none =>
      -- the source only logs an error here and exits successfully
      ⟨st, [], none⟩

/-! ## Lemmas about association lists -/

theorem alGet_insert_self {α : Type} (m : List (String × α)) (k : String) (v : α) :
    alGet (alInsert m k v) k = some v := by
  induction m with
  | nil => simp [alInsert, alGet]
  | cons e rest ih =>
    by_cases h : e.1 = k
    · simp [alInsert, alGet, h]
    · simp [alInsert, alGet, h, ih]

theorem alGet_insert_ne {α : Type} (m : List (String × α)) (k0 k : String) (v : α)
    (h : k0 ≠ k) : alGet (alInsert m k0 v) k = alGet m k := by
  induction m with
  | nil => simp [alInsert, alGet, h]
  | cons e rest ih =>
    by_cases h2 : e.1 = k0
    · simp [alInsert, alGet, h2, h]
    · by_cases h3 : e.1 = k
      · simp [alInsert, alGet, h2, h3, Ne.symm h]
      · simp [alInsert, alGet, h2, h3, ih]

theorem alRemove_insert_of_get_none {α : Type} (m : List (String × α)) (k : String)
    (v : α) (h : alGet m k = none) : alRemove (alInsert m k v) k = m := by
  induction m with
  | nil => simp [alInsert, alRemove]
  | cons e rest ih =>
    by_cases h2 : e.1 = k
    · simp [alGet, h2] at h
    · simp [alGet, h2] at h
      simp [alInsert, alRemove, h2, ih h]

/-! ## Lemmas about the metadata parser -/

theorem validate_string_ok {map : PropMap} {k : String} {u : Unit}
    (h : validate_prop map k .string = .ok u) :
    ∃ v, alGet map k = some v ∧ strTrim v ≠ "" := by
  cases hv : alGet map k with
  | none => simp only [validate_prop, hv] at h; exact Except.noConfusion h
  | some v =>
    simp only [validate_prop, hv] at h
    by_cases ht : strTrim v = ""
    · rw [if_pos ht] at h; exact Except.noConfusion h
    · exact ⟨v, rfl, ht⟩

theorem validate_int_ok {map : PropMap} {k : String} {u : Unit}
    (h : validate_prop map k .int = .ok u) :
    ∃ v n, alGet map k = some v ∧ parseI32 v = some n := by
  cases hv : alGet map k with
  | none => simp only [validate_prop, hv] at h; exact Except.noConfusion h
  | some v =>
    simp only [validate_prop, hv] at h
    cases hp : parseI32 v with
    | none => rw [hp] at h; simp at h
    | some n => exact ⟨v, n, rfl, hp⟩

theorem validate_string_eval {map : PropMap} {k v : String}
    (hv : alGet map k = some v) (ht : strTrim v ≠ "") :
    validate_prop map k .string = .ok () := by
  simp [validate_prop, hv, ht]

theorem validate_int_eval {map : PropMap} {k v : String} {n : Int}
    (hv : alGet map k = some v) (hp : parseI32 v = some n) :
    validate_prop map k .int = .ok () := by
  simp [validate_prop, hv, hp]

set_option maxHeartbeats 1000000 in
theorem read_module_prop_ok_inv {c : String} {d : Option String} {m : PropMap}
    (h : read_module_prop c d = .ok m) :
    (∃ i, alGet (parsePropContent c) "id" = some i ∧ strTrim i ≠ "" ∧ d = some i ∧
      alGet m "id" = some i) ∧
    (∃ v, alGet (parsePropContent c) "name" = some v ∧ strTrim v ≠ "") ∧
    (∃ v, alGet (parsePropContent c) "description" = some v ∧ strTrim v ≠ "") ∧
    (∃ v n, alGet (parsePropContent c) "version" = some v ∧ parseI32 v = some n) ∧
    ((∃ v, alGet (parsePropContent c) "skip_mount" = some v ∧
        (strLower v = "true" ∨ strLower v = "false") ∧ m = parsePropContent c) ∨
      (alGet (parsePropContent c) "skip_mount" = none ∧
        m = alInsert (parsePropContent c) "skip_mount" "false")) := by
  unfold read_module_prop at h
  simp only [bind, Except.bind, pure, Except.pure] at h
  split at h <;> try (exact Except.noConfusion h)
  case _ u1 hval1 =>
  split at h <;> try (exact Except.noConfusion h)
  case _ u2 hval2 =>
  split at h <;> try (exact Except.noConfusion h)
  case _ u3 hval3 =>
  split at h <;> try (exact Except.noConfusion h)
  case _ u4 hval4 =>
  obtain ⟨i, hgi, hti⟩ := validate_string_ok hval1
  obtain ⟨nv, hgn, htn⟩ := validate_string_ok hval2
  obtain ⟨dv, hgd, htd⟩ := validate_string_ok hval3
  obtain ⟨vv, vn, hgv, hpv⟩ := validate_int_ok hval4
  split at h
  case _ sv hsv =>
    split at h <;> try (exact Except.noConfusion h)
    case _ hbool =>
    split at h <;> try (exact Except.noConfusion h)
    case _ dn =>
    split at h <;> try (exact Except.noConfusion h)
    case _ hide =>
    cases h
    rw [hgi] at hide
    simp only [] at hide
    exact ⟨⟨i, hgi, hti, by rw [hide], hgi⟩, ⟨nv, hgn, htn⟩, ⟨dv, hgd, htd⟩,
      ⟨vv, vn, hgv, hpv⟩, .inl ⟨sv, hsv, hbool, rfl⟩⟩
  case _ hsv =>
    split at h <;> try (exact Except.noConfusion h)
    case _ dn =>
    split at h <;> try (exact Except.noConfusion h)
    case _ hide =>
    cases h
    rw [alGet_insert_ne (parsePropContent c) "skip_mount" "id" "false" (by decide),
      hgi] at hide
    simp only [] at hide
    exact ⟨⟨i, hgi, hti, by rw [hide],
        by rw [alGet_insert_ne (parsePropContent c) "skip_mount" "id" "false" (by decide), hgi]⟩,
      ⟨nv, hgn, htn⟩, ⟨dv, hgd, htd⟩, ⟨vv, vn, hgv, hpv⟩, .inr ⟨hsv, rfl⟩⟩

theorem parseLines_get (lines : List (List Char)) (m0 : PropMap) (k : String) :
    alGet (parseLines lines m0) k =
      (match lastValue lines k with
       | some w => some w
       | none => alGet m0 k) := by
  induction lines generalizing m0 with
  | nil => simp [parseLines, lastValue]
  | cons line rest ih =>
    rw [parseLines, ih]
    cases hlv : lastValue rest k with
    | some w => simp [lastValue, hlv]
    | none =>
      simp only [lastValue, hlv]
      cases hsp : splitOnceChar '=' line with
      | none => simp
      | some kv =>
        by_cases hk : String.mk (trimChars kv.1) = k
        · subst hk
          simp [alGet_insert_self]
        · simp [hk, alGet_insert_ne _ _ _ _ hk]

/-! ## Claims C3, C4, C10: the metadata parser -/

/-- Claim C3, counterexample: the input skip_mount=TRUE passes validation,
but the returned record keeps the entry as TRUE; it is not normalized to
the lowercase form the claim states. -/
theorem C3_counterexample :
    read_module_prop "id=m\nname=n\ndescription=d\nversion=1\nskip_mount=TRUE" (some "m")
      = Except.ok
          [("id", "m"), ("name", "n"), ("description", "d"), ("version", "1"),
            ("skip_mount", "TRUE")] ∧
    ("TRUE" : String) ≠ "true" := ⟨rfl, by decide⟩

/-- Claim C3, amended: after a successful read_module_prop the skip_mount
entry is present and is case-insensitively true or false, keeping the
original case of a present input value; an absent skip_mount is defaulted
to false; a present value that is not case-insensitively true or false
makes parsing fail. -/
theorem C3_theorem :
    (∀ c d m, read_module_prop c d = .ok m →
      ∃ v, alGet m "skip_mount" = some v ∧
        (strLower v = "true" ∨ strLower v = "false") ∧
        (alGet (parsePropContent c) "skip_mount" = none → v = "false") ∧
        (∀ w, alGet (parsePropContent c) "skip_mount" = some w → v = w)) ∧
    (∀ c d w, alGet (parsePropContent c) "skip_mount" = some w →
      strLower w ≠ "true" → strLower w ≠ "false" →
      ∀ m, read_module_prop c d ≠ .ok m) := by
  constructor
  · intro c d m h
    obtain ⟨_, _, _, _, hskip⟩ := read_module_prop_ok_inv h
    rcases hskip with ⟨sv, hsv, hbool, hm⟩ | ⟨hsv, hm⟩
    · subst hm
      refine ⟨sv, hsv, hbool, ?_, ?_⟩
      · intro hnone; rw [hsv] at hnone; exact Option.noConfusion hnone
      · intro w hw; rw [hsv] at hw; exact (Option.some.inj hw)
    · subst hm
      refine ⟨"false", alGet_insert_self _ _ _, by decide, fun _ => rfl, ?_⟩
      intro w hw; rw [hsv] at hw; exact Option.noConfusion hw
  · intro c d w hw hne1 hne2 m h
    obtain ⟨_, _, _, _, hskip⟩ := read_module_prop_ok_inv h
    rcases hskip with ⟨sv, hsv, hbool, _⟩ | ⟨hsv, _⟩
    · rw [hw] at hsv
      obtain rfl := (Option.some.inj hsv).symm
      rcases hbool with hb | hb
      · exact hne1 hb
      · exact hne2 hb
    · rw [hw] at hsv; exact Option.noConfusion hsv

/-- Claim C3, witness: both parts of the amended claim applied at concrete
inputs. -/
theorem C3_witness :
    alGet
        [("id", "m"), ("name", "n"), ("description", "d"), ("version", "1"),
          ("skip_mount", "TRUE")] "skip_mount" = some "TRUE" ∧
    read_module_prop "id=m\nname=n\ndescription=d\nversion=1\nskip_mount=maybe" (some "m")
      ≠ Except.ok [] := by
  constructor
  · obtain ⟨v, hv, _, _, hlast⟩ :=
      C3_theorem.1 "id=m\nname=n\ndescription=d\nversion=1\nskip_mount=TRUE" (some "m")
        [("id", "m"), ("name", "n"), ("description", "d"), ("version", "1"),
          ("skip_mount", "TRUE")] (by rfl)
    rw [hlast "TRUE" (by rfl)] at hv
    exact hv
  · exact
      C3_theorem.2 "id=m\nname=n\ndescription=d\nversion=1\nskip_mount=maybe" (some "m")
        "maybe" (by rfl) (by decide) (by decide) []

/-- Claim C4, counterexample: an id containing a hyphen, a character
outside ASCII letters, digits and underscore, passes validation when it
matches the directory name; no character-set restriction is enforced. -/
theorem C4_counterexample :
    read_module_prop "id=a-b\nname=n\ndescription=d\nversion=1" (some "a-b")
      = Except.ok
          [("id", "a-b"), ("name", "n"), ("description", "d"), ("version", "1"),
            ("skip_mount", "false")] ∧
    ∃ ch, ch ∈ ("a-b".toList) ∧ ¬(ch.isAlphanum ∨ ch = '_') := by
  constructor
  · rfl
  · exact ⟨'-', by decide, by decide⟩

/-- Claim C4, amended: read_module_prop succeeds only when the id value is
a non-empty string equal to the name of the immediate parent directory,
and an id/directory-name mismatch fails with the distinct idMismatch
error even when all other fields are valid; the character-set restriction
of the original claim is not enforced by the code. -/
theorem C4_theorem :
    (∀ c d m, read_module_prop c d = .ok m →
      ∃ i, alGet m "id" = some i ∧ i ≠ "" ∧ strTrim i ≠ "" ∧ d = some i) ∧
    (∀ c i m dn, read_module_prop c (some i) = .ok m → dn ≠ i →
      read_module_prop c (some dn) = .error (.idMismatch i dn)) := by
  constructor
  · intro c d m h
    obtain ⟨⟨i, hgi, hti, hd, hmi⟩, _⟩ := read_module_prop_ok_inv h
    refine ⟨i, hmi, ?_, hti, hd⟩
    intro he
    subst he
    exact hti rfl
  · intro c i m dn h hdn
    obtain ⟨⟨i', hgi, hti, hd, hmi⟩, ⟨nv, hgn, htn⟩, ⟨dv, hgd, htd⟩,
      ⟨vv, vn, hgv, hpv⟩, hskip⟩ := read_module_prop_ok_inv h
    injection hd with hd'
    subst hd'
    have hne : ¬(i = dn) := fun he => hdn he.symm
    rcases hskip with ⟨sv, hsv, hbool, _⟩ | ⟨hsv, _⟩
    · rcases hbool with hb | hb <;>
        simp [read_module_prop, bind, Except.bind, pure, Except.pure,
          validate_string_eval hgi hti, validate_string_eval hgn htn,
          validate_string_eval hgd htd, validate_int_eval hgv hpv,
          hsv, hb, hgi, hne]
    · simp [read_module_prop, bind, Except.bind, pure, Except.pure,
        validate_string_eval hgi hti, validate_string_eval hgn htn,
        validate_string_eval hgd htd, validate_int_eval hgv hpv,
        hsv, alGet_insert_ne (parsePropContent c) "skip_mount" "id" "false" (by decide),
        hgi, hne]

/-- Claim C4, witness: a mismatched directory name fails with the
idMismatch error on an otherwise valid input. -/
theorem C4_witness :
    read_module_prop "id=m\nname=n\ndescription=d\nversion=1" (some "x")
      = Except.error (.idMismatch "m" "x") :=
  C4_theorem.2 "id=m\nname=n\ndescription=d\nversion=1" "m"
    [("id", "m"), ("name", "n"), ("description", "d"), ("version", "1"),
      ("skip_mount", "false")] "x" (by rfl) (by decide)

/-- Claim C10: the map built by the line-parsing loop holds, for every
key, the value of the last line assigning that key, and a successful
read_module_prop returns that value for every key the file assigns. -/
theorem C10_theorem :
    (∀ content k, alGet (parsePropContent content) k = lastValue (rustLines content) k) ∧
    (∀ content d m k w, read_module_prop content d = .ok m →
      lastValue (rustLines content) k = some w → alGet m k = some w) := by
  have h1 : ∀ content k,
      alGet (parsePropContent content) k = lastValue (rustLines content) k := by
    intro content k
    rw [parsePropContent, parseLines_get]
    cases hlv : lastValue (rustLines content) k <;> simp [alGet]
  refine ⟨h1, ?_⟩
  intro content d m k w h hlv
  obtain ⟨_, _, _, _, hskip⟩ := read_module_prop_ok_inv h
  rcases hskip with ⟨sv, hsv, hbool, hm⟩ | ⟨hsv, hm⟩
  · subst hm; rw [h1]; exact hlv
  · subst hm
    have hk : k ≠ "skip_mount" := by
      intro he; subst he
      rw [h1, hlv] at hsv; exact Option.noConfusion hsv
    rw [alGet_insert_ne _ "skip_mount" k "false" (fun he => hk he.symm), h1]
    exact hlv

/-- Claim C10, witness: with two version lines the later one wins, both in
the parsed map and in the record a successful read returns. -/
theorem C10_witness :
    alGet (parsePropContent "id=m\nname=n\ndescription=d\nversion=1\nversion=2") "version"
      = lastValue (rustLines "id=m\nname=n\ndescription=d\nversion=1\nversion=2") "version" ∧
    alGet
        [("id", "m"), ("name", "n"), ("description", "d"), ("version", "2"),
          ("skip_mount", "false")] "version" = some "2" :=
  ⟨C10_theorem.1 "id=m\nname=n\ndescription=d\nversion=1\nversion=2" "version",
    C10_theorem.2 "id=m\nname=n\ndescription=d\nversion=1\nversion=2" (some "m")
      [("id", "m"), ("name", "n"), ("description", "d"), ("version", "2"),
        ("skip_mount", "false")] "version" "2" (by rfl) (by rfl)⟩

/-! ## Claims C5, C7, C8, C9: the lifecycle commands -/

/-- Claim C5, counterexample: installing an otherwise valid package that
contains no install.sh does not complete without error; run_script bails
because the script does not exist, although the module has already been
staged into the update-pending set. -/
theorem C5_counterexample :
    (installCommand ⟨[], []⟩
        (.ok (.dir [("module.prop", .file "id=m\nname=n\ndescription=d\nversion=1")]))
        "m" (fun _ _ => true)).err
      = some "script install.sh does not exist" ∧
    (installCommand ⟨[], []⟩
        (.ok (.dir [("module.prop", .file "id=m\nname=n\ndescription=d\nversion=1")]))
        "m" (fun _ _ => true)).state.update
      = [("m", .dir [("module.prop", .file "id=m\nname=n\ndescription=d\nversion=1")])] :=
  ⟨rfl, rfl⟩

/-- Claim C5, amended: installing an otherwise valid package with no
install.sh fails with a script-does-not-exist error, but the module is
nonetheless left staged in the update-pending set, because the move
happens before the script step. -/
theorem C5_theorem :
    ∀ st tree tempName sc props module_id,
      read_module_prop_node tree (some tempName) = .ok props →
      alGet props "id" = some module_id →
      alGet (nodeEntries tree) "install.sh" = none →
      (installCommand st (.ok tree) tempName sc).err
          = some "script install.sh does not exist" ∧
      alGet (installCommand st (.ok tree) tempName sc).state.update module_id
          = some tree := by
  intro st tree tempName sc props module_id h1 h2 h3
  by_cases hc : (alGet st.update module_id).isSome <;>
    simp [installCommand, h1, h2, h3, hc, alGet_insert_self]

/-- Claim C5, witness: the amended claim applied to a concrete package
without install.sh. -/
theorem C5_witness :
    (installCommand ⟨[], []⟩
        (.ok (.dir [("module.prop", .file "id=m\nname=n\ndescription=d\nversion=1")]))
        "m" (fun _ _ => false)).err
      = some "script install.sh does not exist" ∧
    alGet (installCommand ⟨[], []⟩
        (.ok (.dir [("module.prop", .file "id=m\nname=n\ndescription=d\nversion=1")]))
        "m" (fun _ _ => false)).state.update "m"
      = some (.dir [("module.prop", .file "id=m\nname=n\ndescription=d\nversion=1")]) :=
  C5_theorem ⟨[], []⟩
    (.dir [("module.prop", .file "id=m\nname=n\ndescription=d\nversion=1")])
    "m" (fun _ _ => false)
    [("id", "m"), ("name", "n"), ("description", "d"), ("version", "1"),
      ("skip_mount", "false")] "m" (by rfl) (by rfl) (by rfl)

/-- Claim C7: when extraction fails or module.prop fails validation the
install command leaves the state untouched, and any state change implies
that extraction, validation and the id lookup all succeeded, so the
failure modes of the claim never touch the persistent directories. -/
theorem C7_theorem :
    (∀ st e tempName sc, (installCommand st (.error e) tempName sc).state = st) ∧
    (∀ st tree tempName sc pe, read_module_prop_node tree (some tempName) = .error pe →
      (installCommand st (.ok tree) tempName sc).state = st) ∧
    (∀ st tree tempName sc, (installCommand st (.ok tree) tempName sc).state ≠ st →
      ∃ props module_id, read_module_prop_node tree (some tempName) = .ok props ∧
        alGet props "id" = some module_id) := by
  refine ⟨?_, ?_, ?_⟩
  · intro st e tempName sc; rfl
  · intro st tree tempName sc pe h; simp [installCommand, h]
  · intro st tree tempName sc h
    cases hr : read_module_prop_node tree (some tempName) with
    | error pe => exfalso; exact h (by simp [installCommand, hr])
    | ok props =>
      cases hid : alGet props "id" with
      | none => exfalso; exact h (by simp [installCommand, hr, hid])
      | some module_id => exact ⟨props, module_id, rfl, hid⟩

/-- Claim C7, witness: the three parts applied at concrete inputs: a
failed extraction, a package without module.prop, and a state-changing
valid install. -/
theorem C7_witness :
    (installCommand ⟨[], []⟩ (.error "boom") "t" (fun _ _ => true)).state = ⟨[], []⟩ ∧
    (installCommand ⟨[], []⟩ (.ok (.dir [])) "t" (fun _ _ => true)).state = ⟨[], []⟩ ∧
    ∃ props module_id,
      read_module_prop_node
          (.dir [("module.prop", .file "id=m\nname=n\ndescription=d\nversion=1")])
          (some "m") = .ok props ∧
      alGet props "id" = some module_id := by
  refine ⟨C7_theorem.1 ⟨[], []⟩ "boom" "t" (fun _ _ => true),
    C7_theorem.2.1 ⟨[], []⟩ (.dir []) "t" (fun _ _ => true) .readFailed (by rfl),
    C7_theorem.2.2 ⟨[], []⟩
      (.dir [("module.prop", .file "id=m\nname=n\ndescription=d\nversion=1")])
      "m" (fun _ _ => true) ?_⟩
  intro h
  have h2 : (installCommand ⟨[], []⟩
      (.ok (.dir [("module.prop", .file "id=m\nname=n\ndescription=d\nversion=1")]))
      "m" (fun _ _ => true)).state.update.length = 1 := rfl
  rw [h] at h2
  simp at h2

/-- Claim C8: on an installed, unflagged module with a working
uninstall.sh, the uninstall command runs the script and creates
uninstall.flag; running it again removes the flag, restores the original
module directory, and runs no script. -/
theorem C8_theorem :
    ∀ st module_id sc es s,
      alGet st.update module_id = none →
      alGet st.installed module_id = some (.dir es) →
      alGet es "uninstall.flag" = none →
      alGet es "uninstall.sh" = some s →
      sc module_id "uninstall.sh" = true →
      (uninstallCommand st module_id sc).err = none ∧
      (uninstallCommand st module_id sc).ranScripts = [(module_id, "uninstall.sh")] ∧
      alGet (uninstallCommand st module_id sc).state.installed module_id
        = some (.dir (alInsert es "uninstall.flag" (.file ""))) ∧
      (uninstallCommand (uninstallCommand st module_id sc).state module_id sc).err = none ∧
      (uninstallCommand (uninstallCommand st module_id sc).state module_id sc).ranScripts = [] ∧
      alGet (uninstallCommand (uninstallCommand st module_id sc).state module_id sc).state.installed
          module_id = some (.dir es) := by
  intro st module_id sc es s hupd hins hflag hsh hsc
  have h1 : uninstallCommand st module_id sc =
      ⟨⟨alInsert st.installed module_id (.dir (alInsert es "uninstall.flag" (.file ""))),
        st.update⟩, [(module_id, "uninstall.sh")], none⟩ := by
    simp [uninstallCommand, hupd, hins, nodeEntries, hflag, hsh, hsc]
  rw [h1]
  refine ⟨rfl, rfl, alGet_insert_self _ _ _, ?_⟩
  have h2 : uninstallCommand
      ⟨alInsert st.installed module_id (.dir (alInsert es "uninstall.flag" (.file ""))),
        st.update⟩ module_id sc =
      ⟨⟨alInsert (alInsert st.installed module_id (.dir (alInsert es "uninstall.flag" (.file ""))))
          module_id (.dir (alRemove (alInsert es "uninstall.flag" (.file "")) "uninstall.flag")),
        st.update⟩, [], none⟩ := by
    simp [uninstallCommand, hupd, alGet_insert_self, nodeEntries]
  rw [h2]
  rw [alRemove_insert_of_get_none es "uninstall.flag" (.file "") hflag]
  exact ⟨rfl, rfl, alGet_insert_self _ _ _⟩

/-- Claim C8, witness: the toggle applied to a concrete installed module
with an uninstall.sh that exits successfully. -/
theorem C8_witness :
    (uninstallCommand ⟨[("m", .dir [("uninstall.sh", .file "exit 0")])], []⟩ "m"
        (fun _ _ => true)).err = none ∧
    (uninstallCommand ⟨[("m", .dir [("uninstall.sh", .file "exit 0")])], []⟩ "m"
        (fun _ _ => true)).ranScripts = [("m", "uninstall.sh")] ∧
    alGet (uninstallCommand ⟨[("m", .dir [("uninstall.sh", .file "exit 0")])], []⟩ "m"
        (fun _ _ => true)).state.installed "m"
      = some (.dir (alInsert [("uninstall.sh", .file "exit 0")] "uninstall.flag" (.file ""))) ∧
    (uninstallCommand
        (uninstallCommand ⟨[("m", .dir [("uninstall.sh", .file "exit 0")])], []⟩ "m"
          (fun _ _ => true)).state "m" (fun _ _ => true)).err = none ∧
    (uninstallCommand
        (uninstallCommand ⟨[("m", .dir [("uninstall.sh", .file "exit 0")])], []⟩ "m"
          (fun _ _ => true)).state "m" (fun _ _ => true)).ranScripts = [] ∧
    alGet (uninstallCommand
        (uninstallCommand ⟨[("m", .dir [("uninstall.sh", .file "exit 0")])], []⟩ "m"
          (fun _ _ => true)).state "m" (fun _ _ => true)).state.installed "m"
      = some (.dir [("uninstall.sh", .file "exit 0")]) :=
  C8_theorem ⟨[("m", .dir [("uninstall.sh", .file "exit 0")])], []⟩ "m" (fun _ _ => true)
    [("uninstall.sh", .file "exit 0")] (.file "exit 0")
    (by rfl) (by rfl) (by rfl) (by rfl) (by rfl)

/-- Claim C9: for a module id present in both sets, uninstall deletes only
the update-pending entry and returns; the installed set is left entirely
unchanged and no script is run. -/
theorem C9_theorem :
    ∀ st module_id sc u v, alGet st.update module_id = some u →
      alGet st.installed module_id = some v →
      (uninstallCommand st module_id sc).state.installed = st.installed ∧
      (uninstallCommand st module_id sc).state.update = alRemove st.update module_id ∧
      (uninstallCommand st module_id sc).ranScripts = [] ∧
      (uninstallCommand st module_id sc).err = none := by
  intro st module_id sc u v hu hv
  simp [uninstallCommand, hu]

/-- Claim C9, witness: a concrete module present in both sets, flagged in
the installed set. -/
theorem C9_witness :
    (uninstallCommand ⟨[("m", .dir [("uninstall.flag", .file "")])], [("m", .dir [])]⟩ "m"
        (fun _ _ => true)).state.installed = [("m", .dir [("uninstall.flag", .file "")])] ∧
    (uninstallCommand ⟨[("m", .dir [("uninstall.flag", .file "")])], [("m", .dir [])]⟩ "m"
        (fun _ _ => true)).state.update = alRemove [("m", .dir [])] "m" ∧
    (uninstallCommand ⟨[("m", .dir [("uninstall.flag", .file "")])], [("m", .dir [])]⟩ "m"
        (fun _ _ => true)).ranScripts = [] ∧
    (uninstallCommand ⟨[("m", .dir [("uninstall.flag", .file "")])], [("m", .dir [])]⟩ "m"
        (fun _ _ => true)).err = none :=
  C9_theorem ⟨[("m", .dir [("uninstall.flag", .file "")])], [("m", .dir [])]⟩ "m"
    (fun _ _ => true) (.dir []) (.dir [("uninstall.flag", .file "")]) (by rfl) (by rfl)

/-! ## Lemmas about the bind-mount walker -/

theorem attemptMounts_append (ok : MountOracle) (l1 l2 : List MountRec) :
    attemptMounts ok (l1 ++ l2) =
      (match attemptMounts ok l1 with
       | (ms, some e) => (ms, some e)
       | (ms, none) =>
         ((ms ++ (attemptMounts ok l2).1, (attemptMounts ok l2).2) :
           List MountRec × Option MountError)) := by
  induction l1 with
  | nil => simp [attemptMounts]
  | cons m rest ih =>
    cases hok : ok m.src m.dst with
    | some errno => simp [attemptMounts, hok]
    | none =>
      cases hr : attemptMounts ok rest with
      | mk ms err =>
        rw [hr] at ih
        cases err <;> simp [attemptMounts, hok, ih, hr]

theorem walk_eq_attempt (root : List Path) (ok : MountOracle) (base : Path) :
    ∀ rel es, walkEntries root ok base rel es
      = attemptMounts ok (planEntries root base rel es) := by
  intro rel es
  induction rel, es using walkEntries.induct root ok base with
  | case1 rel => simp [walkEntries, planEntries, attemptMounts]
  | case2 rel name rest p sub h ms e hx ih =>
    simp only [walkEntries, planEntries, h, if_true, attemptMounts_append, ← ih, hx]
  | case3 rel name rest p sub h ms hx ih2 ih1 =>
    simp only [walkEntries, planEntries, h, if_true, attemptMounts_append, ← ih2, hx, ih1]
  | case4 rel name rest p sub h ih1 =>
    simp only [walkEntries, planEntries, if_neg h, ih1]
  | case5 rel name rest p content h errno hx =>
    simp only [walkEntries, planEntries, h, if_true, attemptMounts, hx]
  | case6 rel name rest p content h hx ih1 =>
    simp only [walkEntries, planEntries, h, if_true, attemptMounts, hx, ih1]
  | case7 rel name rest p content h ih1 =>
    simp only [walkEntries, planEntries, if_neg h, ih1]
  | case8 rel name rest ih1 =>
    simp only [walkEntries, planEntries, ih1]

theorem attempt_fail (ok : MountOracle) :
    ∀ l ms e, attemptMounts ok l = (ms, some e) →
      ok e.src e.dst = some e.errno ∧
      (∀ m ∈ ms, ok m.src m.dst = none) ∧
      ms = l.take ms.length ∧
      l[ms.length]? = some ⟨e.src, e.dst⟩ := by
  intro l
  induction l with
  | nil => intro ms e h; simp [attemptMounts] at h
  | cons m rest ih =>
    intro ms e h
    cases hok : ok m.src m.dst with
    | some errno =>
      rw [attemptMounts, hok] at h
      injection h with h1 h2
      subst h1
      injection h2 with h2
      subst h2
      simp [hok]
    | none =>
      rw [attemptMounts, hok] at h
      cases hr : attemptMounts ok rest with
      | mk ms0 err0 =>
        rw [hr] at h
        injection h with h1 h2
        subst h1 h2
        obtain ⟨ha, hb, hc, hd⟩ := ih ms0 e hr
        refine ⟨ha, ?_, ?_, ?_⟩
        · intro x hx
          rcases List.mem_cons.1 hx with rfl | hx
          · exact hok
          · exact hb x hx
        · simpa [List.take_succ_cons] using hc
        · simpa using hd

theorem attempt_mem (ok : MountOracle) :
    ∀ l m, m ∈ (attemptMounts ok l).1 → m ∈ l := by
  intro l
  induction l with
  | nil => intro m h; simp [attemptMounts] at h
  | cons x rest ih =>
    intro m h
    cases hok : ok x.src x.dst with
    | some errno => rw [attemptMounts, hok] at h; simp at h
    | none =>
      rw [attemptMounts, hok] at h
      simp only [List.mem_cons] at h ⊢
      rcases h with rfl | h
      · exact .inl rfl
      · exact .inr (ih m h)

theorem plan_mem (root : List Path) (base : Path) :
    ∀ rel es m, m ∈ planEntries root base rel es →
      m.src = base ++ m.dst ∧ m.dst ∈ treeFiles rel es ∧ root.contains m.dst = true := by
  intro rel es
  induction rel, es using planEntries.induct root base with
  | case1 rel => intro m h; simp [planEntries] at h
  | case2 rel name rest p sub h ih2 ih1 =>
    intro m hm
    rw [planEntries, if_pos h] at hm
    rcases List.mem_append.1 hm with hm | hm
    · obtain ⟨h1, h2, h3⟩ := ih2 m hm
      exact ⟨h1, by simp [treeFiles, List.mem_append]; exact .inl h2, h3⟩
    · obtain ⟨h1, h2, h3⟩ := ih1 m hm
      exact ⟨h1, by simp [treeFiles, List.mem_append]; exact .inr h2, h3⟩
  | case3 rel name rest p sub h ih1 =>
    intro m hm
    rw [planEntries, if_neg h] at hm
    obtain ⟨h1, h2, h3⟩ := ih1 m hm
    exact ⟨h1, by simp [treeFiles, List.mem_append]; exact .inr h2, h3⟩
  | case4 rel name rest p content h ih1 =>
    intro m hm
    rw [planEntries, if_pos h] at hm
    rcases List.mem_cons.1 hm with rfl | hm
    · exact ⟨rfl, by simp [treeFiles], by simpa using h⟩
    · obtain ⟨h1, h2, h3⟩ := ih1 m hm
      exact ⟨h1, by simp [treeFiles]; exact .inr h2, h3⟩
  | case5 rel name rest p content h ih1 =>
    intro m hm
    rw [planEntries, if_neg h] at hm
    obtain ⟨h1, h2, h3⟩ := ih1 m hm
    exact ⟨h1, by simp [treeFiles]; exact .inr h2, h3⟩
  | case6 rel name rest ih1 =>
    intro m hm
    rw [planEntries] at hm
    obtain ⟨h1, h2, h3⟩ := ih1 m hm
    exact ⟨h1, by simp [treeFiles]; exact h2, h3⟩
/-- Claim C1: the walk prunes a directory whose destination is missing
without recursing, skips a regular file whose destination is missing, and
skips entries of any other kind, in each case continuing with the sibling
entries; and every mount it performs is of a regular-file leaf of the
tree whose destination exists on the live root, so directories and other
entry kinds are never bind-mounted. -/
theorem C1_theorem :
    (∀ (root : List Path) ok base rel name sub rest,
      root.contains (rel ++ [name]) = false →
      walkEntries root ok base rel ((name, .dir sub) :: rest)
        = walkEntries root ok base rel rest) ∧
    (∀ (root : List Path) ok base rel name content rest,
      root.contains (rel ++ [name]) = false →
      walkEntries root ok base rel ((name, .file content) :: rest)
        = walkEntries root ok base rel rest) ∧
    (∀ (root : List Path) ok base rel name rest,
      walkEntries root ok base rel ((name, .other) :: rest)
        = walkEntries root ok base rel rest) ∧
    (∀ (root : List Path) ok base rel es m,
      m ∈ (walkEntries root ok base rel es).1 →
      m.src = base ++ m.dst ∧ m.dst ∈ treeFiles rel es ∧ root.contains m.dst = true) := by
  refine ⟨?_, ?_, ?_, ?_⟩
  · intro root ok base rel name sub rest h
    have h2 : ¬(rel ++ [name] ∈ root) := by simpa using h
    simp [walkEntries, h2]
  · intro root ok base rel name content rest h
    have h2 : ¬(rel ++ [name] ∈ root) := by simpa using h
    simp [walkEntries, h2]
  · intro root ok base rel name rest
    simp [walkEntries]
  · intro root ok base rel es m hm
    rw [walk_eq_attempt] at hm
    exact plan_mem root base rel es m (attempt_mem ok _ m hm)

/-- Claim C1, witness: the pruning part applied to a concrete tree with a
missing directory, and the mounted-files part applied to the one mount
the walk performs there. -/
theorem C1_witness :
    walkEntries [["etc"], ["etc", "hosts"]] (fun _ _ => none) ["m", "system"] []
        [("gone", .dir [("x", .file "1")]),
          ("etc", .dir [("hosts", .file "2"), ("missing", .file "3"), ("dev", .other)])]
      = walkEntries [["etc"], ["etc", "hosts"]] (fun _ _ => none) ["m", "system"] []
        [("etc", .dir [("hosts", .file "2"), ("missing", .file "3"), ("dev", .other)])] ∧
    (MountRec.mk ["m", "system", "etc", "hosts"] ["etc", "hosts"]).src
        = ["m", "system"] ++ ["etc", "hosts"] ∧
    ["etc", "hosts"] ∈ treeFiles []
        [("gone", .dir [("x", .file "1")]),
          ("etc", .dir [("hosts", .file "2"), ("missing", .file "3"), ("dev", .other)])] ∧
    [["etc"], ["etc", "hosts"]].contains (["etc", "hosts"] : Path) = true := by
  refine ⟨C1_theorem.1 [["etc"], ["etc", "hosts"]] (fun _ _ => none) ["m", "system"] []
      "gone" [("x", .file "1")] _ (by rfl), ?_⟩
  exact C1_theorem.2.2.2 [["etc"], ["etc", "hosts"]] (fun _ _ => none) ["m", "system"] []
    [("gone", .dir [("x", .file "1")]),
      ("etc", .dir [("hosts", .file "2"), ("missing", .file "3"), ("dev", .other)])]
    ⟨["m", "system", "etc", "hosts"], ["etc", "hosts"]⟩
    (by simp [walkEntries])

/-- Claim C2: a failing bind mount aborts the walk of that module with an
error carrying the OS error code and the source and destination paths;
the mounts already performed are exactly the successful prefix of the
planned mounts and are not undone; and the boot pass processes every
installed module independently, so one module failing never stops the
loop over the remaining modules. -/
theorem C2_theorem :
    (∀ (root : List Path) ok base rel es ms e,
      walkEntries root ok base rel es = (ms, some e) →
      ok e.src e.dst = some e.errno ∧
      (∀ m ∈ ms, ok m.src m.dst = none) ∧
      ms = (planEntries root base rel es).take ms.length ∧
      (planEntries root base rel es)[ms.length]? = some ⟨e.src, e.dst⟩) ∧
    (∀ (root : List Path) ok sc modulesBase mods,
      bootInitModules root ok sc modulesBase mods
        = mods.map fun nm => (nm.1, initModule root ok sc modulesBase nm.1 nm.2)) := by
  constructor
  · intro root ok base rel es ms e h
    rw [walk_eq_attempt] at h
    exact attempt_fail ok _ ms e h
  · intro root ok sc modulesBase mods
    induction mods with
    | nil => simp [bootInitModules]
    | cons nm rest ih => simp [bootInitModules, ih]

/-- Claim C2, witness: the abort part applied to a concrete walk whose
second mount fails with OS error 13. -/
theorem C2_witness :
    (fun (_ d : Path) => if d = ["a", "g"] then some (13 : Int) else none)
        ["m", "system", "a", "g"] ["a", "g"] = some 13 ∧
    (planEntries [["a"], ["a", "f"], ["a", "g"]] ["m", "system"] []
        [("a", .dir [("f", .file "1"), ("g", .file "2")])])[1]?
      = some ⟨["m", "system", "a", "g"], ["a", "g"]⟩ ∧
    [MountRec.mk ["m", "system", "a", "f"] ["a", "f"]]
      = (planEntries [["a"], ["a", "f"], ["a", "g"]] ["m", "system"] []
          [("a", .dir [("f", .file "1"), ("g", .file "2")])]).take 1 := by
  obtain ⟨h1, h2, h3, h4⟩ :=
    C2_theorem.1 [["a"], ["a", "f"], ["a", "g"]]
      (fun _ d => if d = ["a", "g"] then some (13 : Int) else none) ["m", "system"] []
      [("a", .dir [("f", .file "1"), ("g", .file "2")])]
      [⟨["m", "system", "a", "f"], ["a", "f"]⟩]
      ⟨["m", "system", "a", "g"], ["a", "g"], 13⟩
      (by simp [walkEntries])
  exact ⟨h1, h4, h3⟩

/-! ## Lemmas about paths, the flat filesystem and move_dir -/

theorem pathUnder_iff (q p : Path) : pathUnder q p = true ↔ ∃ s, q = p ++ s := by
  induction p generalizing q with
  | nil =>
    cases q <;> simp [pathUnder]
  | cons b p ih =>
    cases q with
    | nil => simp [pathUnder]
    | cons a q2 =>
      by_cases hab : a = b
      · subst hab
        simp [pathUnder, ih]
      · simp [pathUnder, hab]

theorem pathUnder_nil (q : Path) : pathUnder q [] = true := by
  cases q <;> rfl

theorem pathUnder_refl (p : Path) : pathUnder p p = true :=
  (pathUnder_iff p p).2 ⟨[], by simp⟩

theorem pathUnder_append (p s : Path) : pathUnder (p ++ s) p = true :=
  (pathUnder_iff (p ++ s) p).2 ⟨s, rfl⟩

theorem pathUnder_antisymm {p q : Path} (h1 : pathUnder q p = true)
    (h2 : pathUnder p q = true) : p = q := by
  obtain ⟨s, rfl⟩ := (pathUnder_iff q p).1 h1
  obtain ⟨t, ht⟩ := (pathUnder_iff p (p ++ s)).1 h2
  rw [List.append_assoc] at ht
  have : ([] : Path) = s ++ t := by
    have := congrArg (fun l => l.drop p.length) ht
    simpa using this
  obtain ⟨rfl, -⟩ := List.append_eq_nil.1 this.symm
  simp

theorem pathUnder_trans {a q b : Path} (h1 : pathUnder q a = true)
    (h2 : pathUnder b q = true) : pathUnder b a = true := by
  obtain ⟨s, rfl⟩ := (pathUnder_iff q a).1 h1
  obtain ⟨t, rfl⟩ := (pathUnder_iff b (a ++ s)).1 h2
  exact (pathUnder_iff _ _).2 ⟨s ++ t, by simp⟩

theorem pathUnder_append_cases {b : Path} :
    ∀ {a s : Path}, pathUnder (a ++ s) b = true →
      pathUnder a b = true ∨ pathUnder b a = true := by
  induction b with
  | nil => intro a s h; exact .inl (pathUnder_nil a)
  | cons y b ih =>
    intro a s h
    cases a with
    | nil => exact .inr (pathUnder_nil _)
    | cons x a2 =>
      rw [List.cons_append, pathUnder] at h
      by_cases hxy : x = y
      · subst hxy
        rw [if_pos rfl] at h
        rcases ih h with h2 | h2
        · exact .inl (by rw [pathUnder, if_pos rfl]; exact h2)
        · exact .inr (by rw [pathUnder, if_pos rfl]; exact h2)
      · rw [if_neg hxy] at h
        exact absurd h (by simp)
theorem fsGet_append (l1 l2 : Fs) (p : Path) :
    fsGet (l1 ++ l2) p =
      (match fsGet l1 p with
       | some k => some k
       | none => fsGet l2 p) := by
  induction l1 with
  | nil => simp [fsGet]
  | cons e rest ih =>
    by_cases hq : e.1 = p <;> simp [fsGet, hq, ih]

theorem fsGet_filter (φ : Path → Bool) (l : Fs) (p : Path) :
    fsGet (l.filter fun e => φ e.1) p = if φ p = true then fsGet l p else none := by
  induction l with
  | nil => simp [fsGet]
  | cons e rest ih =>
    by_cases hq : e.1 = p
    · subst hq
      cases he : φ e.1 <;> simp [fsGet, he, ih]
    · cases he : φ e.1 <;> simp [fsGet, he, hq, ih]

theorem fsGet_some_mem {l : Fs} {p : Path} {k : FKind} (h : fsGet l p = some k) :
    (p, k) ∈ l := by
  induction l with
  | nil => simp [fsGet] at h
  | cons e rest ih =>
    obtain ⟨q0, k0⟩ := e
    by_cases hq : q0 = p
    · rw [fsGet, if_pos hq] at h
      injection h with h
      rw [← hq, ← h]
      exact List.mem_cons_self _ _
    · rw [fsGet, if_neg hq] at h
      exact List.mem_cons.2 (.inr (ih h))

theorem rebase_get (l : Fs) (src dst s : Path) :
    fsGet ((l.filter fun e => pathUnder e.1 src).map
        fun e => (dst ++ e.1.drop src.length, e.2)) (dst ++ s)
      = fsGet l (src ++ s) := by
  induction l with
  | nil => simp [fsGet]
  | cons e rest ih =>
    obtain ⟨q0, k0⟩ := e
    cases hu : pathUnder q0 src with
    | false =>
      have hne : q0 ≠ src ++ s := by
        intro he
        rw [he, pathUnder_append] at hu
        exact Bool.noConfusion hu
      simp only [List.filter_cons, hu]
      rw [fsGet, if_neg hne]
      exact ih
    | true =>
      obtain ⟨t, ht⟩ := (pathUnder_iff q0 src).1 hu
      subst ht
      rw [List.filter_cons, if_pos hu, List.map_cons, fsGet, fsGet]
      have hdrop : (src ++ t).drop src.length = t := by
        simp [List.drop_left]
      rw [hdrop]
      by_cases hts : t = s
      · subst hts
        simp
      · rw [if_neg (by simpa using hts), if_neg (by simpa using hts)]
        exact ih

theorem rebase_get_none (l : Fs) (src dst p : Path) (h : pathUnder p dst = false) :
    fsGet ((l.filter fun e => pathUnder e.1 src).map
        fun e => (dst ++ e.1.drop src.length, e.2)) p = none := by
  induction l with
  | nil => simp [fsGet]
  | cons e rest ih =>
    obtain ⟨q0, k0⟩ := e
    cases hu : pathUnder q0 src with
    | false => simp only [List.filter_cons, hu]; exact ih
    | true =>
      rw [List.filter_cons, if_pos hu, List.map_cons, fsGet, if_neg ?_]
      · exact ih
      · intro he
        rw [← he, pathUnder_append] at h
        exact Bool.noConfusion h

theorem moveTree_get_dst (fs : Fs) (src dst s : Path) :
    fsGet (moveTree fs src dst) (dst ++ s) = fsGet fs (src ++ s) := by
  rw [moveTree, fsGet_append]
  have hkeep : fsGet (fs.filter fun e => !(pathUnder e.1 src) && !(pathUnder e.1 dst))
      (dst ++ s) = none := by
    rw [fsGet_filter (fun q => !(pathUnder q src) && !(pathUnder q dst))]
    rw [pathUnder_append]
    simp
  rw [hkeep]
  exact rebase_get fs src dst s

theorem moveTree_get_src_none (fs : Fs) (src dst : Path)
    (h : pathUnder src dst = false) : fsGet (moveTree fs src dst) src = none := by
  rw [moveTree, fsGet_append]
  have hkeep : fsGet (fs.filter fun e => !(pathUnder e.1 src) && !(pathUnder e.1 dst))
      src = none := by
    rw [fsGet_filter (fun q => !(pathUnder q src) && !(pathUnder q dst))]
    rw [pathUnder_refl]
    simp
  rw [hkeep]
  exact rebase_get_none fs src dst src h

theorem moveTree_get_other (fs : Fs) (src dst q : Path)
    (h1 : pathUnder q src = false) (h2 : pathUnder q dst = false) :
    fsGet (moveTree fs src dst) q = fsGet fs q := by
  rw [moveTree, fsGet_append]
  have hkeep : fsGet (fs.filter fun e => !(pathUnder e.1 src) && !(pathUnder e.1 dst))
      q = fsGet fs q := by
    rw [fsGet_filter (fun q => !(pathUnder q src) && !(pathUnder q dst)), h1, h2]
    simp
  rw [hkeep, rebase_get_none fs src dst q h2]
  cases fsGet fs q <;> simp

theorem subtree_witness {fs : Fs} {p d : Path} {k : FKind}
    (h1 : fsGet fs p = some k) (h2 : pathUnder p d = true) (h3 : p ≠ d) :
    subtreeNonempty fs d = true := by
  rw [subtreeNonempty, List.any_eq_true]
  exact ⟨(p, k), fsGet_some_mem h1, by simp [h2, h3]⟩
theorem mkdirs_cond_step {base : Path} {c : String} {cs : List String} {q : Path}
    (hcond : pathUnder q base = false ∨ pathUnder (base ++ c :: cs) q = false) :
    q ≠ base ++ [c] ∧
    (pathUnder q (base ++ [c]) = false ∨ pathUnder ((base ++ [c]) ++ cs) q = false) := by
  have happ : (base ++ [c]) ++ cs = base ++ c :: cs := by simp
  constructor
  · intro he
    subst he
    rcases hcond with hc | hc
    · rw [pathUnder_append] at hc; exact Bool.noConfusion hc
    · rw [← happ, pathUnder_append] at hc; exact Bool.noConfusion hc
  · rcases hcond with hc | hc
    · cases hq : pathUnder q (base ++ [c]) with
      | false => exact .inl rfl
      | true =>
        rw [pathUnder_trans (pathUnder_append base [c]) hq] at hc
        exact Bool.noConfusion hc
    · right; rw [happ]; exact hc

theorem mkdirs_built_step {base : Path} {c : String} {cs : List String} {q : Path}
    (h1 : pathUnder q base = true) (h2 : pathUnder (base ++ c :: cs) q = true)
    (h3 : q ≠ base) :
    q = base ++ [c] ∨
    (pathUnder q (base ++ [c]) = true ∧ pathUnder ((base ++ [c]) ++ cs) q = true ∧
      q ≠ base ++ [c]) := by
  obtain ⟨t, rfl⟩ := (pathUnder_iff q base).1 h1
  obtain ⟨u, hu⟩ := (pathUnder_iff (base ++ c :: cs) (base ++ t)).1 h2
  rw [List.append_assoc] at hu
  have hcs : c :: cs = t ++ u := by
    have := congrArg (fun l => l.drop base.length) hu
    simpa using this
  cases t with
  | nil => exact absurd (by simp) h3
  | cons c1 t1 =>
    rw [List.cons_append] at hcs
    injection hcs with hc1 hcs1
    subst hc1
    cases t1 with
    | nil => exact .inl (by simp)
    | cons c2 t2 =>
      right
      refine ⟨(pathUnder_iff _ _).2 ⟨c2 :: t2, by simp⟩,
        (pathUnder_iff _ _).2 ⟨u, by rw [hcs1]; simp⟩, ?_⟩
      intro he
      have := congrArg List.length he
      simp [List.length_append] at this

theorem mkdirs_inv :
    ∀ (cs : List String) (fs : Fs) (base : Path) (g : Fs),
      mkdirs fs base cs = .ok g →
      (∀ q, pathUnder q base = false ∨ pathUnder (base ++ cs) q = false →
        fsGet g q = fsGet fs q) ∧
      (∀ q k, fsGet fs q = some k → fsGet g q = some k) ∧
      (∀ q, pathUnder q base = true → pathUnder (base ++ cs) q = true → q ≠ base →
        fsGet g q = some FKind.fdir) := by
  intro cs
  induction cs with
  | nil =>
    intro fs base g h
    rw [mkdirs] at h
    injection h with h
    subst h
    refine ⟨fun q _ => rfl, fun q k hk => hk, ?_⟩
    intro q h1 h2 h3
    rw [List.append_nil] at h2
    exact absurd (pathUnder_antisymm h1 h2).symm h3
  | cons c cs ih =>
    intro fs base g h
    simp only [mkdirs] at h
    cases hq0 : fsGet fs (base ++ [c]) with
    | some k =>
      cases k with
      | ffile d => rw [hq0] at h; exact Except.noConfusion h
      | fdir =>
        rw [hq0] at h
        obtain ⟨A, B, C⟩ := ih fs (base ++ [c]) g h
        refine ⟨?_, B, ?_⟩
        · intro q hcond
          obtain ⟨hne, hcond2⟩ := mkdirs_cond_step hcond
          exact A q hcond2
        · intro q h1 h2 h3
          rcases mkdirs_built_step h1 h2 h3 with rfl | ⟨hb1, hb2, hb3⟩
          · exact B _ _ hq0
          · exact C q hb1 hb2 hb3
    | none =>
      rw [hq0] at h
      obtain ⟨A, B, C⟩ := ih ((base ++ [c], FKind.fdir) :: fs) (base ++ [c]) g h
      have hget : ∀ q, q ≠ base ++ [c] →
          fsGet ((base ++ [c], FKind.fdir) :: fs) q = fsGet fs q := by
        intro q hne
        rw [fsGet, if_neg (fun he => hne he.symm)]
      refine ⟨?_, ?_, ?_⟩
      · intro q hcond
        obtain ⟨hne, hcond2⟩ := mkdirs_cond_step hcond
        rw [A q hcond2, hget q hne]
      · intro q k hk
        have hne : q ≠ base ++ [c] := by
          intro he; subst he; rw [hq0] at hk; exact Option.noConfusion hk
        exact B q k (by rw [hget q hne]; exact hk)
      · intro q h1 h2 h3
        rcases mkdirs_built_step h1 h2 h3 with rfl | ⟨hb1, hb2, hb3⟩
        · exact B _ _ (by rw [fsGet, if_pos rfl])
        · exact C q hb1 hb2 hb3
theorem renameCheck_none_inv {fs : Fs} {src dst : Path}
    (h : renameCheck fs src dst = none) (hsrc : fsGet fs src = some .fdir) :
    pathUnder dst src = false ∧ parentIsDir fs dst = true ∧
    (∀ dk, fsGet fs dst = some dk → dk = .fdir ∧ subtreeNonempty fs dst = false) := by
  simp only [renameCheck, hsrc] at h
  cases hu : pathUnder dst src with
  | true => rw [hu, if_pos rfl] at h; exact Option.noConfusion h
  | false =>
    rw [hu, if_neg (by simp)] at h
    cases hp : parentIsDir fs dst with
    | false =>
      rw [hp, if_pos (show (!false) = true from rfl)] at h
      exact Option.noConfusion h
    | true =>
      rw [hp, if_neg (by simp)] at h
      refine ⟨rfl, rfl, ?_⟩
      intro dk hdk
      rw [hdk] at h
      cases dk with
      | ffile d => simp at h
      | fdir =>
        cases hs : subtreeNonempty fs dst with
        | true => rw [hs, if_pos rfl] at h; exact Option.noConfusion h
        | false => exact ⟨rfl, rfl⟩

theorem rename_ok_shape {fs : Fs} {src dst : Path} {g : Fs}
    (h : rename fs src dst = .ok g) (hne : src ≠ dst) :
    (∃ k, fsGet fs src = some k) ∧ renameCheck fs src dst = none ∧
      g = moveTree fs src dst := by
  cases hs : fsGet fs src with
  | none => simp only [rename, hs] at h; exact Except.noConfusion h
  | some k =>
    simp only [rename, hs, if_neg hne] at h
    cases hc : renameCheck fs src dst with
    | some e => rw [hc] at h; exact Except.noConfusion h
    | none =>
      rw [hc] at h
      injection h with h
      exact ⟨⟨k, rfl⟩, rfl, h.symm⟩

/-- Claim C6: after a successful move_dir the destination subtree equals
the prior source subtree, the source no longer exists, and the old
destination contents are gone; when the destination did not pre-exist,
its missing ancestors have been created as directories. The root path,
which the program never passes to move_dir, is excluded. -/
theorem C6_theorem :
    ∀ (fs : Fs) (a b : Path) (g : Fs), b ≠ [] →
      fsGet fs a = some .fdir →
      move_dir fs a b = .ok g →
      (∀ s, fsGet g (b ++ s) = fsGet fs (a ++ s)) ∧
      fsGet g a = none ∧
      (fsHas fs b = false →
        ∀ q, pathUnder b q = true → q ≠ b → q ≠ [] → fsGet g q = some FKind.fdir) := by
  intro fs a b g hbne hA hmv
  rw [move_dir] at hmv
  simp only [bind, Except.bind] at hmv
  cases hb : fsHas fs b with
  | true =>
    simp only [hb, if_true, delete_dir, remove_dir_all] at hmv
    cases hgb : fsGet fs b with
    | none => rw [fsHas, hgb] at hb; simp at hb
    | some bk =>
      cases bk with
      | ffile d => simp only [hgb] at hmv; exact Except.noConfusion hmv
      | fdir =>
        simp only [hgb] at hmv
        -- hmv : rename (removeTree fs b) a b = .ok g
        cases ha1 : fsGet (removeTree fs b) a with
        | none => simp only [rename, ha1] at hmv; exact Except.noConfusion hmv
        | some k =>
          have ha1f := ha1
          rw [removeTree, fsGet_filter (fun q => !(pathUnder q b))] at ha1f
          by_cases hab : pathUnder a b = true
          · rw [hab] at ha1f; simp at ha1f
          · have hab' : pathUnder a b = false := by
              cases hx : pathUnder a b
              · rfl
              · exact absurd hx hab
            rw [hab'] at ha1f
            simp at ha1f
            rw [hA] at ha1f
            have hk : k = FKind.fdir := by
              injection ha1f with h2; exact h2.symm
            subst hk
            have hne : a ≠ b := by
              intro he
              rw [he, pathUnder_refl] at hab'
              exact Bool.noConfusion hab'
            obtain ⟨-, hchk, hg⟩ := rename_ok_shape hmv hne
            obtain ⟨hba, -, -⟩ := renameCheck_none_inv hchk ha1
            subst hg
            refine ⟨?_, ?_, ?_⟩
            · intro s
              rw [moveTree_get_dst, removeTree,
                fsGet_filter (fun q => !(pathUnder q b))]
              have hs : pathUnder (a ++ s) b = false := by
                cases hx : pathUnder (a ++ s) b
                · rfl
                · rcases pathUnder_append_cases hx with h2 | h2
                  · rw [h2] at hab'; exact Bool.noConfusion hab'
                  · rw [h2] at hba; exact Bool.noConfusion hba
              rw [hs]
              simp
            · exact moveTree_get_src_none _ _ _ hab'
            · intro hfalse
              exact Bool.noConfusion hfalse
  | false =>
    rw [hb, if_neg (show ¬(false = true) by simp)] at hmv
    rw [create_dir_all] at hmv
    cases hcr : mkdirs fs [] b with
    | error e => simp only [hcr] at hmv; exact Except.noConfusion hmv
    | ok fs1 =>
      simp only [hcr] at hmv
      -- hmv : rename fs1 a b = .ok g
      obtain ⟨A, B, C⟩ := mkdirs_inv b fs [] fs1 hcr
      have hf1a : fsGet fs1 a = some FKind.fdir := B a _ hA
      have hgb : fsGet fs b = none := by
        rw [fsHas] at hb
        cases hx : fsGet fs b
        · rfl
        · rw [hx] at hb; simp at hb
      have hne : a ≠ b := by
        intro he
        rw [he, hgb] at hA
        exact Option.noConfusion hA
      obtain ⟨-, hchk, hg⟩ := rename_ok_shape hmv hne
      obtain ⟨hba, -, hdstc⟩ := renameCheck_none_inv hchk hf1a
      subst hg
      have hf1b : fsGet fs1 b = some FKind.fdir := by
        apply C b (pathUnder_nil b) ?_ hbne
        rw [List.nil_append]
        exact pathUnder_refl b
      obtain ⟨-, hsub⟩ := hdstc _ hf1b
      have hab : pathUnder a b = false := by
        cases hx : pathUnder a b
        · rfl
        · rw [subtree_witness hf1a hx hne] at hsub
          exact Bool.noConfusion hsub
      refine ⟨?_, ?_, ?_⟩
      · intro s
        rw [moveTree_get_dst]
        apply A
        right
        rw [List.nil_append]
        cases hx : pathUnder b (a ++ s)
        · rfl
        · rw [pathUnder_trans (pathUnder_append a s) hx] at hba
          exact Bool.noConfusion hba
      · exact moveTree_get_src_none _ _ _ hab
      · intro _ q hq1 hq2 hq3
        have hqa : pathUnder q a = false := by
          cases hx : pathUnder q a
          · rfl
          · rw [pathUnder_trans hx hq1] at hba
            exact Bool.noConfusion hba
        have hqb : pathUnder q b = false := by
          cases hx : pathUnder q b
          · rfl
          · exact absurd (pathUnder_antisymm hq1 hx) hq2
        rw [moveTree_get_other _ _ _ _ hqa hqb]
        apply C q (pathUnder_nil q) ?_ hq3
        rw [List.nil_append]
        exact hq1
/-- Claim C6, witness: a concrete move onto an existing directory, whose
old contents disappear, and a concrete move to a missing destination,
whose ancestor directory is created. -/
theorem C6_witness :
    fsGet [(["b"], FKind.fdir), (["b", "x"], FKind.ffile "1")] (["b"] ++ ["x"])
        = fsGet [(["a"], FKind.fdir), (["a", "x"], FKind.ffile "1"),
            (["b"], FKind.fdir), (["b", "y"], FKind.ffile "2")] (["a"] ++ ["x"]) ∧
    fsGet [(["b"], FKind.fdir), (["b", "x"], FKind.ffile "1")] ["a"] = none ∧
    fsGet [(["c"], FKind.fdir), (["c", "d"], FKind.fdir),
        (["c", "d", "x"], FKind.ffile "1")] ["c"] = some FKind.fdir := by
  obtain ⟨h1, h2, -⟩ :=
    C6_theorem
      [(["a"], FKind.fdir), (["a", "x"], FKind.ffile "1"),
        (["b"], FKind.fdir), (["b", "y"], FKind.ffile "2")]
      ["a"] ["b"] [(["b"], FKind.fdir), (["b", "x"], FKind.ffile "1")]
      (by decide) (by rfl) (by rfl)
  obtain ⟨-, -, h3⟩ :=
    C6_theorem [(["a"], FKind.fdir), (["a", "x"], FKind.ffile "1")]
      ["a"] ["c", "d"]
      [(["c"], FKind.fdir), (["c", "d"], FKind.fdir), (["c", "d", "x"], FKind.ffile "1")]
      (by decide) (by rfl) (by rfl)
  exact ⟨h1 ["x"], h2, h3 (by rfl) ["c"] (by rfl) (by decide) (by decide)⟩

end Scriba
